import Mathlib

/-!
Verification of the TeleGPT response pipeline core against its specification.

The definitions below are a shallow embedding of the Rust sources:
* `src/modules/chat/session.rs`   — bounded per-conversation history store
* `src/modules/chat/braille.rs`   — braille progress indicator
* `src/utils/stream_ext.rs`       — `ThrottleBuffer` stream combinator
* `src/modules/chat/markdown.rs`  — markdown to Telegram rich-text converter
* `src/modules/chat/mod.rs`       — response orchestrator glue

Machine integers are modelled as `Nat`/`Int`; the `i64` message-id counter
wraps explicitly through `wrap64`.  External collaborators (the Telegram
client, the OpenAI client, the `pulldown-cmark` tokenizer, URL parsing and
the tokio timer) are not part of the embedded code: they appear as explicit
parameters (event lists, poll schedules, oracles, predicates).
-/

set_option autoImplicit false

namespace TeleGPT

/-! ### Data model (src/modules/chat/session.rs)

`Message` models `async_openai::types::ChatCompletionRequestMessage`
restricted to the two fields the history store reads (`role`, `content`). -/

inductive Role where
  | user
  | assistant
  | system
deriving DecidableEq

structure Message where
  role : Role
  content : String
deriving DecidableEq

structure HistoryMessage where
  id : Int
  message : Message
deriving DecidableEq

/-- Wrapping `i64` addition result: `overflowing_add` semantics on a
signed 64-bit integer represented as an unbounded `Int`. -/
def wrap64 (z : Int) : Int :=
  (z + 2 ^ 63) % 2 ^ 64 - 2 ^ 63

/-- The id-keyed `HashMap<i64, HistoryMessage>` is modelled as an
association list; `insert` replaces any entry with the same key. -/
def mapInsert (m : List (Int × HistoryMessage)) (k : Int) (v : HistoryMessage) :
    List (Int × HistoryMessage) :=
  m.filter (fun p => p.1 != k) ++ [(k, v)]

def mapRemove (m : List (Int × HistoryMessage)) (k : Int) :
    List (Int × HistoryMessage) :=
  m.filter (fun p => p.1 != k)

def mapGet (m : List (Int × HistoryMessage)) (k : Int) : Option HistoryMessage :=
  (m.find? (fun p => p.1 == k)).map (·.2)

structure HistoryMessagePool where
  currentId : Int
  messages : List (Int × HistoryMessage)
  deque : List Int
deriving DecidableEq

def HistoryMessagePool.empty : HistoryMessagePool :=
  { currentId := 0, messages := [], deque := [] }

def HistoryMessagePool.prepareMessage (p : HistoryMessagePool) (message : Message) :
    HistoryMessagePool × HistoryMessage :=
  let id := wrap64 (p.currentId + 1)
  ({ p with currentId := id }, { id := id, message := message })

def HistoryMessagePool.pushMessage (p : HistoryMessagePool) (message : HistoryMessage) :
    HistoryMessagePool :=
  { p with
    messages := mapInsert p.messages message.id message,
    deque := p.deque ++ [message.id] }

def HistoryMessagePool.popMessage (p : HistoryMessagePool) : HistoryMessagePool :=
  match p.deque with
  | [] => p
  | evictedId :: rest =>
    { p with deque := rest, messages := mapRemove p.messages evictedId }

def HistoryMessagePool.clear (p : HistoryMessagePool) : HistoryMessagePool :=
  { p with deque := [], messages := [] }

def HistoryMessagePool.len (p : HistoryMessagePool) : Nat :=
  p.deque.length

def HistoryMessagePool.getMessage (p : HistoryMessagePool) (id : Int) :
    Option HistoryMessage :=
  mapGet p.messages id

def HistoryMessagePool.iter (p : HistoryMessagePool) : List HistoryMessage :=
  p.deque.filterMap (fun id => p.getMessage id)

/-- `Session` carries the only `SharedConfig` field it reads,
`conversation_limit` (a `u64`, modelled as `Nat`). -/
structure Session where
  systemMessage : Option Message
  historyMessages : HistoryMessagePool
  pendingMessage : Option Message
  conversationLimit : Nat
deriving DecidableEq

def Session.new (conversationLimit : Nat) : Session :=
  { systemMessage := none
    historyMessages := HistoryMessagePool.empty
    pendingMessage := none
    conversationLimit := conversationLimit }

def Session.reset (s : Session) : Session :=
  { s with
    systemMessage := none
    historyMessages := s.historyMessages.clear
    pendingMessage := none }

def Session.prepareHistoryMessage (s : Session) (message : Message) :
    Session × HistoryMessage :=
  let r := s.historyMessages.prepareMessage message
  ({ s with historyMessages := r.1 }, r.2)

def Session.addHistoryMessage (s : Session) (message : HistoryMessage) : Session :=
  if message.message.role = Role.system then
    { s with systemMessage := some message.message }
  else
    let pool :=
      if s.historyMessages.len ≥ s.conversationLimit then
        s.historyMessages.popMessage
      else
        s.historyMessages
    { s with historyMessages := pool.pushMessage message }

def Session.getHistoryMessage (s : Session) (id : Int) : Option Message :=
  (s.historyMessages.getMessage id).map (·.message)

def Session.getHistoryMessages (s : Session) : List Message :=
  let msgs := s.historyMessages.iter.map (·.message)
  match s.systemMessage with
  | some sysMsg => sysMsg :: msgs
  | none => msgs

def Session.swapPendingMessage (s : Session) (msg : Option Message) :
    Option Message × Session :=
  match msg with
  | some m => (s.pendingMessage, { s with pendingMessage := some m })
  | none => (s.pendingMessage, { s with pendingMessage := none })

/-! ### Association-list map lemmas -/

theorem find?_filter_of_imp {α : Type} (l : List α) (p q : α → Bool)
    (h : ∀ x, p x = true → q x = true) :
    (l.filter q).find? p = l.find? p := by
  induction l with
  | nil => rfl
  | cons a rest ih =>
    by_cases hq : q a = true
    · simp only [List.filter_cons, hq, if_true, List.find?]
      cases hp : p a <;> simp [List.find?, hp, ih]
    · have hp : p a = false := by
        cases hpa : p a
        · rfl
        · exact absurd (h a hpa) hq
      simp only [List.filter_cons, hq, if_false, List.find?, hp]
      exact ih

theorem mapGet_mapInsert (m : List (Int × HistoryMessage)) (k : Int)
    (v : HistoryMessage) (k' : Int) :
    mapGet (mapInsert m k v) k' = if k' = k then some v else mapGet m k' := by
  unfold mapGet mapInsert
  by_cases hk : k' = k
  · subst hk
    have hnone : (m.filter (fun p => p.1 != k')).find? (fun p => p.1 == k') = none := by
      apply List.find?_eq_none.mpr
      intro x hx
      have := List.of_mem_filter hx
      simpa using this
    simp [List.find?_append, hnone]
  · have hfilter :
        (m.filter (fun p => p.1 != k)).find? (fun p => p.1 == k') =
          m.find? (fun p => p.1 == k') := by
      apply find?_filter_of_imp
      intro x hx
      have hxk : x.1 = k' := by simpa using hx
      simp [hxk, hk]
    have hkk : (k == k') = false := by simpa using Ne.symm hk
    have hsingle : ([(k, v)].find? (fun p => p.1 == k')) = none := by
      simp [List.find?, hkk]
    simp [List.find?_append, hfilter, hsingle, hk]

theorem mapGet_mapRemove_self (m : List (Int × HistoryMessage)) (k : Int) :
    mapGet (mapRemove m k) k = none := by
  unfold mapGet mapRemove
  have hnone : (m.filter (fun p => p.1 != k)).find? (fun p => p.1 == k) = none := by
    apply List.find?_eq_none.mpr
    intro x hx
    have := List.of_mem_filter hx
    simpa using this
  simp [hnone]

/-- Claim C6: `swap_pending_message` returns the previous pending value,
leaves the slot equal to its argument, touches nothing else, and a stashed
message is retrievable exactly once. -/
theorem swapPendingMessage_spec (s : Session) (x : Option Message) (m : Message) :
    (s.swapPendingMessage x).1 = s.pendingMessage
    ∧ (s.swapPendingMessage x).2 = { s with pendingMessage := x }
    ∧ ((s.swapPendingMessage (some m)).2.swapPendingMessage none).1 = some m
    ∧ ((s.swapPendingMessage none).2.swapPendingMessage none).1 = none
    ∧ ((((s.swapPendingMessage (some m)).2.swapPendingMessage none).2).swapPendingMessage
        none).1 = none := by
  refine ⟨?_, ?_, ?_, ?_, ?_⟩ <;> cases x <;> simp [Session.swapPendingMessage]

/-! ### Bounded-pool lemmas -/

theorem len_popMessage (p : HistoryMessagePool) (h : p.deque ≠ []) :
    p.popMessage.len = p.len - 1 := by
  unfold HistoryMessagePool.popMessage HistoryMessagePool.len
  cases hd : p.deque with
  | nil => exact absurd hd h
  | cons a rest => simp [hd]

theorem len_pushMessage (p : HistoryMessagePool) (m : HistoryMessage) :
    (p.pushMessage m).len = p.len + 1 := by
  simp [HistoryMessagePool.pushMessage, HistoryMessagePool.len]

theorem addHistoryMessage_nonsystem (s : Session) (m : HistoryMessage)
    (h : m.message.role ≠ Role.system) :
    s.addHistoryMessage m =
      { s with historyMessages :=
          (if s.historyMessages.len ≥ s.conversationLimit then
            s.historyMessages.popMessage
          else
            s.historyMessages).pushMessage m } := by
  simp [Session.addHistoryMessage, h]

theorem len_addHistoryMessage (s : Session) (m : HistoryMessage)
    (hrole : m.message.role ≠ Role.system)
    (hle : s.historyMessages.len ≤ s.conversationLimit)
    (hlim : 1 ≤ s.conversationLimit) :
    (s.addHistoryMessage m).historyMessages.len
      = min (s.historyMessages.len + 1) s.conversationLimit := by
  rw [addHistoryMessage_nonsystem s m hrole]
  by_cases hge : s.historyMessages.len ≥ s.conversationLimit
  · have heq : s.historyMessages.len = s.conversationLimit := le_antisymm hle hge
    have hne : s.historyMessages.deque ≠ [] := by
      intro hnil
      have hz : s.historyMessages.len = 0 := by simp [HistoryMessagePool.len, hnil]
      omega
    simp only [if_pos hge, len_pushMessage, len_popMessage _ hne]
    omega
  · simp only [if_neg hge, len_pushMessage]
    omega

theorem min_chain (a r L : Nat) (h : a ≤ L) :
    min (min (a + 1) L + r) L = min (a + r + 1) L := by
  rcases le_total (a + 1) L with h1 | h1
  · rw [Nat.min_eq_left h1]
    have harg : a + 1 + r = a + r + 1 := by omega
    rw [harg]
  · rw [Nat.min_eq_right h1, Nat.min_eq_right (by omega), Nat.min_eq_right (by omega)]

theorem len_foldl_addHistoryMessage (msgs : List HistoryMessage) :
    ∀ (s : Session), (∀ m ∈ msgs, m.message.role ≠ Role.system) →
      1 ≤ s.conversationLimit →
      s.historyMessages.len ≤ s.conversationLimit →
      (msgs.foldl Session.addHistoryMessage s).historyMessages.len
          = min (s.historyMessages.len + msgs.length) s.conversationLimit
      ∧ (msgs.foldl Session.addHistoryMessage s).conversationLimit
          = s.conversationLimit := by
  induction msgs with
  | nil =>
    intro s _ _ hle
    refine ⟨?_, rfl⟩
    simp [Nat.min_eq_left hle]
  | cons m rest ih =>
    intro s hroles hlim hle
    have hm : m.message.role ≠ Role.system := hroles m (by simp)
    have hrest : ∀ x ∈ rest, x.message.role ≠ Role.system := fun x hx =>
      hroles x (by simp [hx])
    have hframe : (s.addHistoryMessage m).conversationLimit = s.conversationLimit := by
      rw [addHistoryMessage_nonsystem s m hm]
    have hlen : (s.addHistoryMessage m).historyMessages.len
        = min (s.historyMessages.len + 1) s.conversationLimit :=
      len_addHistoryMessage s m hm hle hlim
    have hle' : (s.addHistoryMessage m).historyMessages.len
        ≤ (s.addHistoryMessage m).conversationLimit := by
      rw [hlen, hframe]
      exact Nat.min_le_right _ _
    have hlim' : 1 ≤ (s.addHistoryMessage m).conversationLimit := hframe ▸ hlim
    obtain ⟨h1, h2⟩ := ih (s.addHistoryMessage m) hrest hlim' hle'
    refine ⟨?_, by rw [List.foldl_cons, h2, hframe]⟩
    rw [List.foldl_cons, h1, hlen, hframe, min_chain _ _ _ hle]
    rw [List.length_cons, Nat.add_assoc]

theorem foldl_no_evict (msgs : List HistoryMessage) :
    ∀ (s : Session), (∀ m ∈ msgs, m.message.role ≠ Role.system) →
      s.historyMessages.len + msgs.length ≤ s.conversationLimit →
      (msgs.foldl Session.addHistoryMessage s).systemMessage = s.systemMessage
      ∧ (msgs.foldl Session.addHistoryMessage s).pendingMessage = s.pendingMessage
      ∧ (msgs.foldl Session.addHistoryMessage s).conversationLimit = s.conversationLimit
      ∧ (msgs.foldl Session.addHistoryMessage s).historyMessages.currentId
          = s.historyMessages.currentId
      ∧ (msgs.foldl Session.addHistoryMessage s).historyMessages.deque
          = s.historyMessages.deque ++ msgs.map (·.id)
      ∧ (msgs.foldl Session.addHistoryMessage s).historyMessages.messages
          = msgs.foldl (fun mp hm => mapInsert mp hm.id hm) s.historyMessages.messages := by
  induction msgs with
  | nil =>
    intro s _ _
    simp
  | cons m rest ih =>
    intro s hroles hfit
    have hm : m.message.role ≠ Role.system := hroles m (by simp)
    have hrest : ∀ x ∈ rest, x.message.role ≠ Role.system := fun x hx =>
      hroles x (by simp [hx])
    have hlt : ¬ s.historyMessages.len ≥ s.conversationLimit := by
      simp only [List.length_cons] at hfit
      omega
    have hadd : s.addHistoryMessage m
        = { s with historyMessages := s.historyMessages.pushMessage m } := by
      rw [addHistoryMessage_nonsystem s m hm, if_neg hlt]
    have hfit' : (s.addHistoryMessage m).historyMessages.len + rest.length
        ≤ (s.addHistoryMessage m).conversationLimit := by
      rw [hadd]
      simp only [len_pushMessage]
      simp only [List.length_cons] at hfit
      omega
    obtain ⟨i1, i2, i3, i4, i5, i6⟩ := ih (s.addHistoryMessage m) hrest hfit'
    rw [List.foldl_cons]
    refine ⟨by rw [i1, hadd], by rw [i2, hadd], by rw [i3, hadd], ?_, ?_, ?_⟩
    · rw [i4, hadd]
      simp [HistoryMessagePool.pushMessage]
    · rw [i5, hadd]
      simp [HistoryMessagePool.pushMessage]
    · rw [i6, hadd]
      simp [HistoryMessagePool.pushMessage, List.foldl_cons]

theorem mapGet_foldl_insert (msgs : List HistoryMessage) :
    ∀ (base : List (Int × HistoryMessage)) (hm : HistoryMessage),
      hm ∈ msgs → (msgs.map (·.id)).Nodup →
      mapGet (msgs.foldl (fun mp x => mapInsert mp x.id x) base) hm.id = some hm := by
  induction msgs using List.reverseRecOn with
  | nil =>
    intro base hm h
    simp at h
  | append_singleton init last ih =>
    intro base hm hmem hnd
    rw [List.foldl_append, List.foldl_cons, List.foldl_nil]
    rw [List.map_append, List.nodup_append] at hnd
    rcases List.mem_append.mp hmem with hin | hlast
    · have hidmem : hm.id ∈ init.map (·.id) := List.mem_map_of_mem _ hin
      have hne : hm.id ≠ last.id := by
        intro heq
        exact hnd.2.2 hidmem (by simp [heq])
      rw [mapGet_mapInsert, if_neg hne]
      exact ih base hm hin hnd.1
    · have hlast' : hm = last := by simpa using hlast
      subst hlast'
      rw [mapGet_mapInsert, if_pos rfl]

theorem filterMap_eq_self_of {α : Type} (l : List α) (f : α → Option α)
    (h : ∀ x ∈ l, f x = some x) : l.filterMap f = l := by
  induction l with
  | nil => rfl
  | cons a rest ih =>
    rw [List.filterMap_cons, h a (by simp)]
    rw [ih (fun x hx => h x (by simp [hx]))]

/-- Claim C1 (amended: the invariant needs `conversation_limit ≥ 1`, and the
eviction/lookup part needs the inserted messages to carry pairwise-distinct
ids, as the ids produced by `prepare_history_message` do): the retained pool
holds at most `conversation_limit` entries after every insertion, inserting
`conversation_limit + 1` non-system messages leaves exactly
`conversation_limit` entries, and the evicted oldest id is no longer found
by `get_history_message`. -/
theorem history_bounded_eviction (limit : Nat) (msgs : List HistoryMessage)
    (hlim : 1 ≤ limit)
    (hroles : ∀ m ∈ msgs, m.message.role ≠ Role.system)
    (hids : (msgs.map (·.id)).Nodup) :
    (∀ n, ((msgs.take n).foldl Session.addHistoryMessage
        (Session.new limit)).historyMessages.len ≤ limit)
    ∧ (msgs.length = limit + 1 →
        (msgs.foldl Session.addHistoryMessage (Session.new limit)).historyMessages.len
            = limit
        ∧ ∀ m0 ∈ msgs.head?,
            (msgs.foldl Session.addHistoryMessage
              (Session.new limit)).getHistoryMessage m0.id = none) := by
  constructor
  · intro n
    have hroles' : ∀ m ∈ msgs.take n, m.message.role ≠ Role.system := fun m hm =>
      hroles m (List.take_subset n msgs hm)
    have h := (len_foldl_addHistoryMessage (msgs.take n) (Session.new limit) hroles'
      (by simpa [Session.new] using hlim) (by simp [Session.new, HistoryMessagePool.empty,
        HistoryMessagePool.len])).1
    rw [h]
    exact Nat.min_le_right _ _
  · intro hlen
    have hne : msgs ≠ [] := by
      intro h
      rw [h] at hlen
      simp only [List.length_nil] at hlen
      omega
    obtain ⟨init, last, hsplit⟩ : ∃ init last, msgs = init ++ [last] :=
      ⟨msgs.dropLast, msgs.getLast hne, (List.dropLast_append_getLast hne).symm⟩
    have hinitlen : init.length = limit := by
      rw [hsplit] at hlen
      simp at hlen
      omega
    cases hinit : init with
    | nil =>
      rw [hinit] at hinitlen
      simp at hinitlen
      omega
    | cons i0 irest =>
      subst hsplit
      subst hinit
      have hlen2 : irest.length + 1 = limit := by simpa using hinitlen
      have hrolesInit : ∀ m ∈ i0 :: irest, m.message.role ≠ Role.system := fun m hm =>
        hroles m (List.mem_append_left [last] hm)
      have hlast : last.message.role ≠ Role.system :=
        hroles last (List.mem_append_right (i0 :: irest) (by simp))
      have hfit0 : (Session.new limit).historyMessages.len + (i0 :: irest).length
          ≤ (Session.new limit).conversationLimit := by
        show 0 + (i0 :: irest).length ≤ limit
        simp [hinitlen]
      obtain ⟨n1, n2, n3, n4, n5, n6⟩ :=
        foldl_no_evict (i0 :: irest) (Session.new limit) hrolesInit hfit0
      set sInit := (i0 :: irest).foldl Session.addHistoryMessage (Session.new limit) with hsInit
      have hdq : sInit.historyMessages.deque = i0.id :: irest.map (·.id) := by
        rw [n5]
        simp [Session.new, HistoryMessagePool.empty]
      have hlenInit : sInit.historyMessages.len = limit := by
        unfold HistoryMessagePool.len
        rw [hdq]
        simpa using hinitlen
      have hlimInit : sInit.conversationLimit = limit := by
        rw [n3]
        rfl
      have hge : sInit.historyMessages.len ≥ sInit.conversationLimit := by
        rw [hlenInit, hlimInit]
      have hfold : ((i0 :: irest) ++ [last]).foldl Session.addHistoryMessage
          (Session.new limit) = sInit.addHistoryMessage last := by
        rw [List.foldl_append]
        simp [hsInit]
      have hadd : sInit.addHistoryMessage last
          = { sInit with historyMessages := sInit.historyMessages.popMessage.pushMessage last } := by
        rw [addHistoryMessage_nonsystem sInit last hlast, if_pos hge]
      have hpop : sInit.historyMessages.popMessage
          = { sInit.historyMessages with
              deque := irest.map (·.id),
              messages := mapRemove sInit.historyMessages.messages i0.id } := by
        unfold HistoryMessagePool.popMessage
        rw [hdq]
      have hi0last : i0.id ≠ last.id := by
        intro heq
        have hndup : (i0.id :: (List.map (fun x => x.id) irest ++ [last.id])).Nodup := by
          simpa only [List.map_cons, List.map_append, List.map_nil] using hids
        exact (List.nodup_cons.mp hndup).1 (by simp [heq])
      constructor
      · rw [hfold, hadd]
        show (sInit.historyMessages.popMessage.pushMessage last).len = limit
        rw [len_pushMessage, hpop]
        show (irest.map (·.id)).length + 1 = limit
        simpa using hlen2
      · intro m0 hm0
        have hm0' : i0 = m0 := by simpa using hm0
        subst hm0'
        rw [hfold, hadd]
        show ((sInit.historyMessages.popMessage.pushMessage last).getMessage i0.id).map
          (·.message) = none
        rw [hpop]
        show (mapGet (mapInsert (mapRemove sInit.historyMessages.messages i0.id)
          last.id last) i0.id).map (·.message) = none
        rw [mapGet_mapInsert, if_neg hi0last, mapGet_mapRemove_self]
        rfl

/-- Claim C1, witness: with limit 1, inserting two user messages evicts the
first id. -/
theorem history_bounded_eviction_witness :
    (([⟨1, ⟨Role.user, "a"⟩⟩, ⟨2, ⟨Role.user, "b"⟩⟩] : List HistoryMessage).foldl
        Session.addHistoryMessage (Session.new 1)).getHistoryMessage 1 = none :=
  ((history_bounded_eviction 1 [⟨1, ⟨Role.user, "a"⟩⟩, ⟨2, ⟨Role.user, "b"⟩⟩]
      (by decide) (by decide) (by decide)).2 (by decide)).2
    ⟨1, ⟨Role.user, "a"⟩⟩ (by decide)

/-- Claim C1, counterexample to the claim as stated: with
`conversation_limit = 0` a single insertion leaves one retained entry
(violating `history.len() <= conversation_limit`), and with duplicate ids
the evicted oldest id is still retrievable after `conversation_limit + 1`
insertions. -/
theorem history_bounded_eviction_cex :
    ((([{ id := 1, message := { role := Role.user, content := "a" } }] :
        List HistoryMessage).foldl Session.addHistoryMessage
          (Session.new 0)).historyMessages.len = 1)
    ∧ ((([⟨1, ⟨Role.user, "a"⟩⟩, ⟨2, ⟨Role.user, "b"⟩⟩, ⟨1, ⟨Role.user, "c"⟩⟩] :
        List HistoryMessage).foldl Session.addHistoryMessage
          (Session.new 2)).getHistoryMessage 1
        = some { role := Role.user, content := "c" }) := by
  constructor <;> rfl

/-- Claim C7: a system-role insertion replaces the single system slot and
leaves the bounded pool untouched (two system insertions keep only the
second), and `get_history_messages` lists the system message first, then
the pool in insertion order. -/
theorem system_slot_and_order :
    (∀ (s : Session) (h1 h2 : HistoryMessage),
      h1.message.role = Role.system → h2.message.role = Role.system →
        (s.addHistoryMessage h1).historyMessages = s.historyMessages
        ∧ (s.addHistoryMessage h1).systemMessage = some h1.message
        ∧ ((s.addHistoryMessage h1).addHistoryMessage h2).systemMessage = some h2.message
        ∧ ((s.addHistoryMessage h1).addHistoryMessage h2).historyMessages
            = s.historyMessages)
    ∧ (∀ (limit : Nat) (sysHm : HistoryMessage) (msgs : List HistoryMessage),
        sysHm.message.role = Role.system →
        (∀ m ∈ msgs, m.message.role ≠ Role.system) →
        msgs.length ≤ limit → (msgs.map (·.id)).Nodup →
        (msgs.foldl Session.addHistoryMessage
            ((Session.new limit).addHistoryMessage sysHm)).getHistoryMessages
          = sysHm.message :: msgs.map (·.message)
        ∧ (msgs.foldl Session.addHistoryMessage
            (Session.new limit)).getHistoryMessages = msgs.map (·.message)) := by
  constructor
  · intro s h1 h2 hr1 hr2
    refine ⟨?_, ?_, ?_, ?_⟩ <;> simp [Session.addHistoryMessage, hr1, hr2]
  · intro limit sysHm msgs hsys hroles hfit hnd
    have horder : ∀ (s0 : Session), s0.historyMessages = HistoryMessagePool.empty →
        s0.conversationLimit = limit →
        (msgs.foldl Session.addHistoryMessage s0).getHistoryMessages
          = (match s0.systemMessage with
             | some m => m :: msgs.map (·.message)
             | none => msgs.map (·.message)) := by
      intro s0 hpool hlimit
      obtain ⟨n1, _, _, _, n5, n6⟩ := foldl_no_evict msgs s0 hroles
        (by rw [hpool, hlimit]; simpa [HistoryMessagePool.empty, HistoryMessagePool.len]
          using hfit)
      unfold Session.getHistoryMessages
      rw [n1]
      have hiter : (msgs.foldl Session.addHistoryMessage s0).historyMessages.iter = msgs := by
        unfold HistoryMessagePool.iter HistoryMessagePool.getMessage
        rw [n5, n6, hpool]
        simp only [HistoryMessagePool.empty, List.nil_append]
        rw [List.filterMap_map]
        apply filterMap_eq_self_of
        intro hm hmem
        simpa using mapGet_foldl_insert msgs [] hm hmem hnd
      rw [hiter]
    constructor
    · have hs0 : ((Session.new limit).addHistoryMessage sysHm)
          = { Session.new limit with systemMessage := some sysHm.message } := by
        simp [Session.addHistoryMessage, hsys]
      rw [hs0]
      rw [horder _ (by simp [Session.new]) (by simp [Session.new])]
    · rw [horder _ (by simp [Session.new]) (by simp [Session.new])]
      simp [Session.new]

/-- Claim C7, witness: a system message followed by one user message is
listed with the system message first. -/
theorem system_slot_and_order_witness :
    (([⟨2, ⟨Role.user, "hi"⟩⟩] : List HistoryMessage).foldl Session.addHistoryMessage
        ((Session.new 20).addHistoryMessage ⟨1, ⟨Role.system, "sys"⟩⟩)).getHistoryMessages
      = [⟨Role.system, "sys"⟩, ⟨Role.user, "hi"⟩] :=
  (system_slot_and_order.2 20 ⟨1, ⟨Role.system, "sys"⟩⟩ [⟨2, ⟨Role.user, "hi"⟩⟩]
      (by decide) (by decide) (by decide) (by decide)).1

/-- Claim C8 (amended: the freshly allocated id is guaranteed to be
unretrievable only when it was not already present in the pool before the
call; `add_history_message` accepts caller-built entries, so an adversarial
earlier insertion can already occupy the next id): `prepare_history_message`
returns the wrapped increment of the id counter, mutates nothing observable
in the retained history, and the entry becomes retrievable once committed. -/
theorem prepare_history_frame (s : Session) (msg : Message) :
    (s.prepareHistoryMessage msg).2.id = wrap64 (s.historyMessages.currentId + 1)
    ∧ (s.prepareHistoryMessage msg).2.message = msg
    ∧ (s.prepareHistoryMessage msg).1.systemMessage = s.systemMessage
    ∧ (s.prepareHistoryMessage msg).1.pendingMessage = s.pendingMessage
    ∧ (s.prepareHistoryMessage msg).1.historyMessages.messages
        = s.historyMessages.messages
    ∧ (s.prepareHistoryMessage msg).1.historyMessages.deque = s.historyMessages.deque
    ∧ (∀ id, (s.prepareHistoryMessage msg).1.getHistoryMessage id
        = s.getHistoryMessage id)
    ∧ (s.getHistoryMessage (s.prepareHistoryMessage msg).2.id = none →
        (s.prepareHistoryMessage msg).1.getHistoryMessage
          (s.prepareHistoryMessage msg).2.id = none)
    ∧ (msg.role ≠ Role.system →
        ((s.prepareHistoryMessage msg).1.addHistoryMessage
            (s.prepareHistoryMessage msg).2).getHistoryMessage
          (s.prepareHistoryMessage msg).2.id = some msg) := by
  refine ⟨rfl, rfl, rfl, rfl, rfl, rfl, fun _ => rfl, fun h => h, ?_⟩
  intro hrole
  rw [addHistoryMessage_nonsystem _ _ hrole]
  unfold Session.getHistoryMessage HistoryMessagePool.getMessage
    HistoryMessagePool.pushMessage
  simp only
  rw [mapGet_mapInsert, if_pos rfl]
  rfl

/-- Claim C8, witness: in a fresh session the prepared entry gets id 1,
which is not yet retrievable, and becomes retrievable after commit. -/
theorem prepare_history_frame_witness :
    let s := Session.new 5
    ((s.prepareHistoryMessage { role := Role.user, content := "y" }).1.getHistoryMessage
        (s.prepareHistoryMessage { role := Role.user, content := "y" }).2.id = none)
    ∧ (((s.prepareHistoryMessage { role := Role.user, content := "y" }).1.addHistoryMessage
          (s.prepareHistoryMessage { role := Role.user, content := "y" }).2).getHistoryMessage
        (s.prepareHistoryMessage { role := Role.user, content := "y" }).2.id
        = some { role := Role.user, content := "y" }) :=
  ⟨(prepare_history_frame _ _).2.2.2.2.2.2.2.1 (by decide),
   (prepare_history_frame _ _).2.2.2.2.2.2.2.2 (by decide)⟩

/-- Claim C8, counterexample to the claim as stated: if the pool already
holds an entry with id 1 (committed directly through the public
`add_history_message`, whose `HistoryMessage` fields are public) while the
id counter is still 0, then the id returned by the next
`prepare_history_message` call is 1 and it is already retrievable before
any commit. -/
theorem prepare_history_frame_cex :
    ((((Session.new 5).addHistoryMessage
        { id := 1, message := { role := Role.user, content := "x" } }).prepareHistoryMessage
          { role := Role.user, content := "y" }).2.id = 1)
    ∧ ((((Session.new 5).addHistoryMessage
        { id := 1, message := { role := Role.user, content := "x" } }).prepareHistoryMessage
          { role := Role.user, content := "y" }).1.getHistoryMessage 1
        = some { role := Role.user, content := "x" }) := by
  constructor <;> rfl

/-! ### ThrottleBuffer (src/utils/stream_ext.rs)

The inner stream is modelled by a finite poll schedule: each poll of the
wrapped stream consumes one entry (`item x` for `Ready(Some(x))`, `pending`
for `Pending`); once the schedule is exhausted the stream returns
`Ready(None)`.  The buffer type is the `Vec` instantiation used by
`stream_model_result` (`Extend` appends).  The tokio sleep timer is an
external clock: whether an armed sleep has elapsed at a given poll is
supplied by a boolean oracle. -/

inductive InnerPoll (ι : Type) where
  | item : ι → InnerPoll ι
  | pending : InnerPoll ι
deriving DecidableEq

structure TBState (ι : Type) where
  stream : List (InnerPoll ι)
  buffer : Option (List ι)
  activeSleep : Bool
  done : Bool
deriving DecidableEq

inductive PollOut (ι : Type) where
  | emit : List ι → PollOut ι
  | pend : PollOut ι
  | finished : PollOut ι
deriving DecidableEq

def initTB {ι : Type} (stream : List (InnerPoll ι)) : TBState ι :=
  { stream := stream, buffer := none, activeSleep := false, done := false }

/-- The drain loop of `poll_next`: poll the inner stream until `Pending`
(break) or `Ready(None)` (set `done`, break), extending the buffer with
each received item (`get_or_insert(Default::default()).extend([item])`). -/
def drainStream {ι : Type} : List (InnerPoll ι) → Option (List ι) →
    List (InnerPoll ι) × Option (List ι) × Bool
  | [], buf => ([], buf, true)
  | .pending :: rest, buf => (rest, buf, false)
  | .item x :: rest, buf => drainStream rest (some (buf.getD [] ++ [x]))

/-- One poll of the `ThrottleBuffer` output stream
(`<ThrottleBuffer as Stream>::poll_next`). -/
def pollNext {ι : Type} (s : TBState ι) (sleepReady : Bool) : PollOut ι × TBState ι :=
  if s.done then
    match s.buffer with
    | some b => (.emit b, { s with buffer := none })
    | none => (.finished, s)
  else
    let r := drainStream s.stream s.buffer
    let s1 : TBState ι := { s with stream := r.1, buffer := r.2.1, done := r.2.2 }
    match r.2.1 with
    | none => (.pend, s1)
    | some b =>
      if s1.activeSleep && !sleepReady then (.pend, s1)
      else (.emit b, { s1 with buffer := none, activeSleep := true })

/-- Poll the throttled stream repeatedly (at most `fuel` polls), collecting
the emitted buffers, stopping at end-of-stream. -/
def runTB {ι : Type} : Nat → TBState ι → (Nat → Bool) → Nat →
    List (List ι) × TBState ι
  | 0, s, _, _ => ([], s)
  | fuel + 1, s, oracle, k =>
    match pollNext s (oracle k) with
    | (.finished, s1) => ([], s1)
    | (.pend, s1) => runTB fuel s1 oracle (k + 1)
    | (.emit b, s1) =>
      let r := runTB fuel s1 oracle (k + 1)
      (b :: r.1, r.2)

def itemsOf {ι : Type} (sched : List (InnerPoll ι)) : List ι :=
  sched.filterMap (fun p =>
    match p with
    | .item x => some x
    | .pending => none)

def emittedOf {ι : Type} : PollOut ι → List ι
  | .emit b => b
  | .pend => []
  | .finished => []

def TBInv {ι : Type} (s : TBState ι) : Prop :=
  (s.done = true → s.stream = []) ∧ (∀ b, s.buffer = some b → b ≠ [])

/-- The input items not yet delivered downstream. -/
def remItems {ι : Type} (s : TBState ι) : List ι :=
  s.buffer.getD [] ++ itemsOf s.stream

def tbMeasure {ι : Type} (s : TBState ι) : Nat :=
  s.stream.length + (if s.done then 0 else 1) + (if s.buffer.isSome then 1 else 0)

theorem drainStream_spec {ι : Type} :
    ∀ (l : List (InnerPoll ι)) (buf : Option (List ι)),
      ((drainStream l buf).2.1.getD [] ++ itemsOf (drainStream l buf).1
        = buf.getD [] ++ itemsOf l)
      ∧ ((drainStream l buf).2.2 = true → (drainStream l buf).1 = [])
      ∧ ((∀ b, buf = some b → b ≠ []) →
          ∀ b, (drainStream l buf).2.1 = some b → b ≠ [])
      ∧ ((drainStream l buf).1.length + (if (drainStream l buf).2.2 then 0 else 1)
          + (if (drainStream l buf).2.1.isSome then 1 else 0)
          < l.length + 1 + (if buf.isSome then 1 else 0)) := by
  intro l
  induction l with
  | nil =>
    intro buf
    refine ⟨by simp [drainStream, itemsOf], fun _ => rfl, fun h => h, ?_⟩
    simp only [drainStream, List.length_nil]
    cases buf <;> simp
  | cons hd rest ih =>
    intro buf
    cases hd with
    | pending =>
      refine ⟨by simp [drainStream, itemsOf], ?_, fun h => h, ?_⟩
      · intro h
        simp [drainStream] at h
      · simp only [drainStream, List.length_cons]
        cases buf <;> simp
    | item x =>
      obtain ⟨ih1, ih2, ih3, ih4⟩ := ih (some (buf.getD [] ++ [x]))
      have hstep : drainStream (InnerPoll.item x :: rest) buf
          = drainStream rest (some (buf.getD [] ++ [x])) := rfl
      rw [hstep]
      refine ⟨?_, ih2, ?_, ?_⟩
      · rw [ih1]
        simp [itemsOf]
      · intro _ b hb
        refine ih3 ?_ b hb
        intro b' hb'
        have hbe : b' = buf.getD [] ++ [x] := by
          injection hb' with h
          exact h.symm
        subst hbe
        simp
      · refine lt_of_lt_of_le ih4 ?_
        simp only [List.length_cons, Option.isSome_some]
        cases buf <;> simp

theorem pollNext_step {ι : Type} (s : TBState ι) (r : Bool) (hinv : TBInv s) :
    TBInv (pollNext s r).2
    ∧ emittedOf (pollNext s r).1 ++ remItems (pollNext s r).2 = remItems s
    ∧ ((pollNext s r).1 = .finished →
        (pollNext s r).2 = s ∧ remItems s = [] ∧ s.done = true ∧ s.buffer = none)
    ∧ (∀ b, (pollNext s r).1 = .emit b → b ≠ [])
    ∧ ((pollNext s r).1 ≠ .finished → tbMeasure (pollNext s r).2 < tbMeasure s) := by
  obtain ⟨hdone, hbuf⟩ := hinv
  obtain ⟨stream, buffer, asleep, done⟩ := s
  cases done with
  | true =>
    have hstream : stream = [] := hdone rfl
    subst hstream
    cases buffer with
    | some b =>
      refine ⟨⟨fun _ => rfl, by simp [pollNext]⟩, ?_, by simp [pollNext], ?_, ?_⟩
      · simp [pollNext, emittedOf, remItems, itemsOf]
      · intro b' hb'
        simp only [pollNext, if_pos rfl] at hb'
        injection hb' with h
        exact hbuf b' (by rw [h])
      · intro _
        simp [pollNext, tbMeasure]
    | none =>
      refine ⟨⟨hdone, hbuf⟩, ?_, ?_, ?_, ?_⟩
      · simp [pollNext, emittedOf]
      · intro _
        refine ⟨rfl, ?_, rfl, rfl⟩
        simp [remItems, itemsOf]
      · intro b hb
        simp [pollNext] at hb
      · intro hne
        exact absurd rfl hne
  | false =>
    obtain ⟨c1, c2, c3, c4⟩ := drainStream_spec stream buffer
    rcases hE : drainStream stream buffer with ⟨rest, buf2, dn⟩
    rw [hE] at c1 c2 c3 c4
    simp only at c1 c2 c3 c4
    cases buf2 with
    | none =>
      have hpoll : pollNext (TBState.mk stream buffer asleep false) r
          = (.pend, TBState.mk rest none asleep dn) := by
        simp [pollNext, hE]
      rw [hpoll]
      refine ⟨⟨fun h => c2 h, by simp⟩, ?_, by simp, by simp, ?_⟩
      · simpa [emittedOf, remItems] using c1
      · intro _
        simpa [tbMeasure] using c4
    | some b =>
      have hbne : b ≠ [] := c3 hbuf b rfl
      by_cases hsleep : (asleep && !r) = true
      · have hpoll : pollNext (TBState.mk stream buffer asleep false) r
            = (.pend, TBState.mk rest (some b) asleep dn) := by
          simp [pollNext, hE, hsleep]
        rw [hpoll]
        refine ⟨⟨fun h => c2 h, ?_⟩, ?_, by simp, by simp, ?_⟩
        · intro b' hb'
          injection hb' with h
          rw [← h]
          exact hbne
        · simpa [emittedOf, remItems] using c1
        · intro _
          simpa [tbMeasure] using c4
      · have hpoll : pollNext (TBState.mk stream buffer asleep false) r
            = (.emit b, TBState.mk rest none true dn) := by
          simp [pollNext, hE, hsleep]
        rw [hpoll]
        refine ⟨⟨fun h => c2 h, by simp⟩, ?_, by simp, ?_, ?_⟩
        · simpa [emittedOf, remItems] using c1
        · intro b' hb'
          injection hb' with h
          rw [← h]
          exact hbne
        · intro _
          refine lt_of_le_of_lt ?_ c4
          simp [tbMeasure]

theorem runTB_spec {ι : Type} :
    ∀ (fuel : Nat) (s : TBState ι) (oracle : Nat → Bool) (k : Nat),
      TBInv s → tbMeasure s < fuel →
      ((runTB fuel s oracle k).1.flatten = remItems s)
      ∧ (∀ b ∈ (runTB fuel s oracle k).1, b ≠ [])
      ∧ (runTB fuel s oracle k).2.done = true
      ∧ (runTB fuel s oracle k).2.buffer = none := by
  intro fuel
  induction fuel with
  | zero =>
    intro s oracle k _ hm
    omega
  | succ fuel ih =>
    intro s oracle k hinv hm
    obtain ⟨p1, p2, p3, p4, p5⟩ := pollNext_step s (oracle k) hinv
    rcases hp : pollNext s (oracle k) with ⟨out, s1⟩
    rw [hp] at p1 p2 p3 p4 p5
    simp only at p1 p2 p3 p4 p5
    have hrun : runTB (fuel + 1) s oracle k
        = (match (out, s1) with
           | (.finished, s1) => ([], s1)
           | (.pend, s1) => runTB fuel s1 oracle (k + 1)
           | (.emit b, s1) =>
             let r := runTB fuel s1 oracle (k + 1)
             (b :: r.1, r.2)) := by
      simp [runTB, hp]
    cases out with
    | finished =>
      obtain ⟨hs1, hrem, hdone, hbuf⟩ := p3 rfl
      rw [hrun]
      subst hs1
      exact ⟨by simpa using hrem.symm, by simp, hdone, hbuf⟩
    | pend =>
      have hm1 : tbMeasure s1 < fuel := by
        have := p5 (by simp)
        omega
      obtain ⟨r1, r2, r3, r4⟩ := ih s1 oracle (k + 1) p1 hm1
      rw [hrun]
      refine ⟨?_, r2, r3, r4⟩
      rw [r1]
      simpa [emittedOf] using p2
    | emit b =>
      have hm1 : tbMeasure s1 < fuel := by
        have := p5 (by simp)
        omega
      obtain ⟨r1, r2, r3, r4⟩ := ih s1 oracle (k + 1) p1 hm1
      rw [hrun]
      refine ⟨?_, ?_, r3, r4⟩
      · simp only [List.flatten_cons]
        rw [r1]
        simpa [emittedOf] using p2
      · intro b' hb'
        rcases List.mem_cons.mp hb' with h | h
        · subst h
          exact p4 b' rfl
        · exact r2 b' h

theorem getLast?_flatten {α : Type} :
    ∀ (ls : List (List α)), (∀ l ∈ ls, l ≠ []) →
      ∀ lb, ls.getLast? = some lb → ls.flatten.getLast? = lb.getLast? := by
  intro ls
  induction ls with
  | nil =>
    intro _ lb h
    simp at h
  | cons a rest ih =>
    intro hne lb hlast
    cases rest with
    | nil =>
      have ha : a = lb := by simpa using hlast
      subst ha
      simp
    | cons a2 rest2 =>
      have h1 : (a2 :: rest2).getLast? = some lb := by
        simpa [List.getLast?_cons_cons] using hlast
      have hjoin : ((a :: a2 :: rest2).flatten) = a ++ (a2 :: rest2).flatten := rfl
      have ha2 : a2 ≠ [] := hne a2 (by simp)
      have hjne : (a2 :: rest2).flatten ≠ [] := by
        cases a2 with
        | nil => exact absurd rfl ha2
        | cons y ys => simp [List.flatten]
      rw [hjoin, List.getLast?_append_of_ne_nil _ hjne]
      exact ih (fun l hl => hne l (by simp [hl])) lb h1

/-- Claim C2: over any finite inner poll schedule and any timer oracle, the
throttled stream drops nothing: the emitted buffers concatenate to exactly
the input item sequence in order, every emitted buffer is non-empty, the
run terminates with `done` set and an empty buffer, and the final emitted
buffer ends with the final input item. -/
theorem throttle_buffer_no_drop {ι : Type} (sched : List (InnerPoll ι))
    (oracle : Nat → Bool) :
    ((runTB (sched.length + 2) (initTB sched) oracle 0).1.flatten = itemsOf sched)
    ∧ (∀ b ∈ (runTB (sched.length + 2) (initTB sched) oracle 0).1, b ≠ [])
    ∧ (runTB (sched.length + 2) (initTB sched) oracle 0).2.done = true
    ∧ (runTB (sched.length + 2) (initTB sched) oracle 0).2.buffer = none
    ∧ (itemsOf sched ≠ [] →
        ∃ lb, (runTB (sched.length + 2) (initTB sched) oracle 0).1.getLast? = some lb
          ∧ lb.getLast? = (itemsOf sched).getLast?) := by
  have hinv : TBInv (initTB sched) := ⟨by simp [initTB], by simp [initTB]⟩
  have hm : tbMeasure (initTB sched) < sched.length + 2 := by
    simp [tbMeasure, initTB]
  obtain ⟨r1, r2, r3, r4⟩ := runTB_spec (sched.length + 2) (initTB sched) oracle 0 hinv hm
  have hjoin : (runTB (sched.length + 2) (initTB sched) oracle 0).1.flatten
      = itemsOf sched := by
    rw [r1]
    simp [remItems, initTB]
  refine ⟨hjoin, r2, r3, r4, ?_⟩
  intro hne
  have hemsne : (runTB (sched.length + 2) (initTB sched) oracle 0).1 ≠ [] := by
    intro h
    rw [h] at hjoin
    exact hne (by simpa using hjoin.symm)
  refine ⟨(runTB (sched.length + 2) (initTB sched) oracle 0).1.getLast hemsne,
    List.getLast?_eq_getLast _ hemsne, ?_⟩
  have hlast := getLast?_flatten (runTB (sched.length + 2) (initTB sched) oracle 0).1 r2
    ((runTB (sched.length + 2) (initTB sched) oracle 0).1.getLast hemsne)
    (List.getLast?_eq_getLast _ hemsne)
  rw [hjoin] at hlast
  exact hlast.symm

/-- Claim C2, witness: a two-item bursty schedule; hypotheses of the final
conjunct are discharged at this concrete input. -/
theorem throttle_buffer_no_drop_witness :
    ∃ lb, (runTB 5 (initTB [InnerPoll.item 1, InnerPoll.pending, InnerPoll.item 2])
        (fun _ => true) 0).1.getLast? = some lb
      ∧ lb.getLast? = (itemsOf [InnerPoll.item 1, InnerPoll.pending,
          InnerPoll.item 2]).getLast? :=
  (throttle_buffer_no_drop [InnerPoll.item 1, InnerPoll.pending, InnerPoll.item 2]
    (fun _ => true)).2.2.2.2 (by decide)

/-- Claim C3 (code bug): at the poll where the inner stream reports
completion with an empty accumulation buffer, `poll_next` returns
`Poll::Pending` (with `done` set, and no waker left registered) instead of
`Poll::Ready(None)`; end-of-stream is only reported at the next poll. -/
theorem throttle_empty_completion_pending :
    pollNext (initTB ([] : List (InnerPoll Nat))) true
      = (PollOut.pend, TBState.mk [] none false true)
    ∧ pollNext (TBState.mk ([] : List (InnerPoll Nat)) none false true) true
      = (PollOut.finished, TBState.mk [] none false true) := by
  constructor <;> rfl

/-! ### Orchestrator model-stream collection (src/modules/chat/mod.rs) -/

structure ChatModelResult where
  content : String
  tokenUsage : Nat
deriving DecidableEq

/-- The post-loop logic of `stream_model_result`, as a function of the
buffers emitted by the throttled stream: each emission overwrites
`last_response` with the buffer's last element; if the stream ends with no
`last_response`, the call fails with "Server returned empty response",
otherwise the local token estimate is attached.  The character-count token
estimator (floating-point in the source) is an explicit parameter. -/
def streamModelResult (estimateTokens : String → Nat)
    (estimatedPromptTokens : Nat) (emissions : List (List ChatModelResult)) :
    Except String ChatModelResult :=
  let lastResponse := emissions.foldl (fun _last buf => buf.getLast?)
    (none : Option ChatModelResult)
  match lastResponse with
  | some r =>
    .ok { r with tokenUsage := estimateTokens r.content + estimatedPromptTokens }
  | none => .error "Server returned empty response"

inductive ReplyAction where
  | reply (content : String)
  | errorWithRetry
deriving DecidableEq

/-- The session effects of `actually_handle_chat_message` once the model
call has returned: on success the assistant reply entry is prepared first,
then the user and reply entries are committed; on failure the user message
is stashed in the pending slot and a Retry keyboard is offered, with no
history mutation. -/
def handleChatResult (s : Session) (userMsg : Message)
    (result : Except String ChatModelResult) : Session × ReplyAction :=
  match result with
  | .ok res =>
    let r1 := s.prepareHistoryMessage { role := Role.assistant, content := res.content }
    let r2 := r1.1.prepareHistoryMessage userMsg
    let s3 := (r2.1.addHistoryMessage r2.2).addHistoryMessage r1.2
    (s3, .reply res.content)
  | .error _ =>
    let r := s.swapPendingMessage (some userMsg)
    (r.2, .errorWithRetry)

theorem flatten_eq_nil_of_ne {α : Type} (ls : List (List α))
    (hne : ∀ l ∈ ls, l ≠ []) (h : ls.flatten = []) : ls = [] := by
  cases ls with
  | nil => rfl
  | cons a rest =>
    exfalso
    have ha : a = [] := by
      have h2 := h
      simp at h2
      exact h2.1
    exact hne a (by simp) ha

/-- Claim C10: if the model stream completes cleanly without yielding any
item, the throttled stream emits nothing, `stream_model_result` returns the
"Server returned empty response" error rather than an empty success, and
the orchestrator error path stashes the user message in the pending slot
and shows the retry affordance, leaving the history untouched. -/
theorem empty_stream_is_error (estimateTokens : String → Nat)
    (promptTokens : Nat) (sched : List (InnerPoll ChatModelResult))
    (oracle : Nat → Bool) (session : Session) (userMsg : Message)
    (hempty : itemsOf sched = []) :
    (runTB (sched.length + 2) (initTB sched) oracle 0).1 = []
    ∧ streamModelResult estimateTokens promptTokens
        (runTB (sched.length + 2) (initTB sched) oracle 0).1
      = .error "Server returned empty response"
    ∧ (handleChatResult session userMsg
        (streamModelResult estimateTokens promptTokens
          (runTB (sched.length + 2) (initTB sched) oracle 0).1)).1.pendingMessage
      = some userMsg
    ∧ (handleChatResult session userMsg
        (streamModelResult estimateTokens promptTokens
          (runTB (sched.length + 2) (initTB sched) oracle 0).1)).1.historyMessages
      = session.historyMessages
    ∧ (handleChatResult session userMsg
        (streamModelResult estimateTokens promptTokens
          (runTB (sched.length + 2) (initTB sched) oracle 0).1)).1.systemMessage
      = session.systemMessage
    ∧ (handleChatResult session userMsg
        (streamModelResult estimateTokens promptTokens
          (runTB (sched.length + 2) (initTB sched) oracle 0).1)).2
      = ReplyAction.errorWithRetry := by
  have hinv : TBInv (initTB sched) := ⟨by simp [initTB], by simp [initTB]⟩
  have hm : tbMeasure (initTB sched) < sched.length + 2 := by
    simp [tbMeasure, initTB]
  obtain ⟨r1, r2, _, _⟩ := runTB_spec (sched.length + 2) (initTB sched) oracle 0 hinv hm
  have hflat : (runTB (sched.length + 2) (initTB sched) oracle 0).1.flatten = [] := by
    rw [r1]
    simp [remItems, initTB, hempty]
  have hnil : (runTB (sched.length + 2) (initTB sched) oracle 0).1 = [] :=
    flatten_eq_nil_of_ne _ r2 hflat
  rw [hnil]
  exact ⟨rfl, rfl, rfl, rfl, rfl, rfl⟩

/-- Claim C10, witness: the empty schedule with a fresh session. -/
theorem empty_stream_is_error_witness :
    (handleChatResult (Session.new 20) ⟨Role.user, "hello"⟩
        (streamModelResult (fun _ => 0) 0
          (runTB 2 (initTB ([] : List (InnerPoll ChatModelResult)))
            (fun _ => false) 0).1)).1.pendingMessage
      = some ⟨Role.user, "hello"⟩ :=
  (empty_stream_is_error (fun _ => 0) 0 [] (fun _ => false) (Session.new 20)
    ⟨Role.user, "hello"⟩ rfl).2.2.1

/-! ### Braille progress indicator (src/modules/chat/braille.rs) -/

def brailleBlank : Nat := 0x2800

/-- The `DOTS` table: `brailleDots i j = DOTS[i][j]`. -/
def brailleDots : Nat → Nat → Nat
  | 0, 0 => 0x0001
  | 0, 1 => 0x0008
  | 1, 0 => 0x0002
  | 1, 1 => 0x0010
  | 2, 0 => 0x0004
  | 2, 1 => 0x0020
  | 3, 0 => 0x0040
  | 3, 1 => 0x0080
  | _, _ => 0

structure BrailleProgress where
  width : Nat
  height : Nat
  length : Nat
  current : Nat
  label : Option String
deriving DecidableEq

def BrailleProgress.new (width height length : Nat) (label : Option String) :
    BrailleProgress :=
  { width := width, height := height, length := length, current := 0, label := label }

def BrailleProgress.pixelLength (p : BrailleProgress) : Nat :=
  let pixelWidth := p.width * 2
  let pixelHeight := p.height * 4
  (pixelWidth + pixelHeight - 2) * 2

def BrailleProgress.advanceProgress (p : BrailleProgress) : BrailleProgress :=
  { p with current := (p.current + 1) % p.pixelLength }

/-- `chars[idx] |= dot` (modelled as an in-bounds list update). -/
def orAt (chars : List Nat) (idx : Nat) (dot : Nat) : List Nat :=
  chars.set idx (chars.getD idx 0 ||| dot)

/-- One perimeter side: visit the `(cell, dot)` pairs in order, lighting
each when the counter is in the lit arc, incrementing the counter. -/
def sideFold (lit : Int → Bool) (cells : List (Nat × Nat))
    (acc : List Nat × Int) : List Nat × Int :=
  cells.foldl
    (fun acc cell =>
      ((if lit acc.2 then orAt acc.1 cell.1 cell.2 else acc.1), acc.2 + 1))
    acc

def topCells (w : Nat) : List (Nat × Nat) :=
  (List.range w).flatMap (fun idx =>
    (List.range 2).map (fun i => (idx, brailleDots 0 i)))

def rightCells (w h : Nat) : List (Nat × Nat) :=
  (List.range h).flatMap (fun y =>
    (List.range 4).map (fun i => (y * w + w - 1, brailleDots i 1)))

def bottomCells (w h : Nat) : List (Nat × Nat) :=
  (List.range w).flatMap (fun k =>
    (List.range 2).map (fun j => ((h - 1) * w + (w - 1 - k), brailleDots 3 (1 - j))))

def leftCells (w h : Nat) : List (Nat × Nat) :=
  (List.range h).flatMap (fun k =>
    (List.range 4).map (fun j => ((h - 1 - k) * w, brailleDots (3 - j) 0)))

/-- The grid rendering of `string_for_progress` for a reduced counter: the
counter walks the four sides (top, right, bottom, left, sharing the corner
counter values via the `- 1` adjustments), a cell dot lights when the
counter lies in `mod_current..mod_current+length` or trails an arc that
wrapped past the perimeter, and rows are prefixed with newlines before the
optional label is appended. -/
def renderGrid (width height length : Nat) (label : Option String)
    (modCurrent : Nat) : String :=
  let pixelLength : Int := (((width * 2) + (height * 4) - 2) * 2 : Nat)
  let mc : Int := (modCurrent : Int)
  let len : Int := (length : Int)
  let outOfRange : Int := mc + len - 1 - pixelLength
  let lit : Int → Bool := fun counter =>
    (decide (mc ≤ counter) && decide (counter < mc + len))
      || decide (counter ≤ outOfRange)
  let a0 : List Nat × Int := (List.replicate (width * height) brailleBlank, 0)
  let a1 := sideFold lit (topCells width) a0
  let b1 := (a1.1, a1.2 - 1)
  let a2 := sideFold lit (rightCells width height) b1
  let b2 := (a2.1, a2.2 - 1)
  let a3 := sideFold lit (bottomCells width height) b2
  let b3 := (a3.1, a3.2 - 1)
  let a4 := sideFold lit (leftCells width height) b3
  let chars := a4.1
  let body := String.mk ((chars.enum).flatMap (fun ic =>
    (if ic.1 % width == 0 then ['\n'] else []) ++ [Char.ofNat ic.2]))
  match label with
  | some label => body ++ " " ++ label
  | none => body

def BrailleProgress.stringForProgress (p : BrailleProgress) (current : Nat) :
    String :=
  renderGrid p.width p.height p.length p.label (current % p.pixelLength)

def BrailleProgress.currentString (p : BrailleProgress) : String :=
  p.stringForProgress p.current

theorem advance_current (q : BrailleProgress) :
    (q.advanceProgress).current = (q.current + 1) % q.pixelLength := rfl

theorem iterate_advance_frame (p : BrailleProgress) :
    ∀ n : Nat,
      (BrailleProgress.advanceProgress^[n] p).width = p.width
      ∧ (BrailleProgress.advanceProgress^[n] p).height = p.height
      ∧ (BrailleProgress.advanceProgress^[n] p).length = p.length
      ∧ (BrailleProgress.advanceProgress^[n] p).label = p.label := by
  intro n
  induction n with
  | zero => exact ⟨rfl, rfl, rfl, rfl⟩
  | succ n ih =>
    rw [Function.iterate_succ_apply']
    exact ih

theorem pixelLength_eq_of_frame (p q : BrailleProgress) (hw : q.width = p.width)
    (hh : q.height = p.height) : q.pixelLength = p.pixelLength := by
  unfold BrailleProgress.pixelLength
  rw [hw, hh]

theorem iterate_advance_current (p : BrailleProgress) :
    ∀ n : Nat, 0 < n →
      (BrailleProgress.advanceProgress^[n] p).current
        = (p.current + n) % p.pixelLength := by
  intro n
  induction n with
  | zero => intro h; omega
  | succ n ih =>
    intro _
    rw [Function.iterate_succ_apply']
    cases n with
    | zero =>
      simp [BrailleProgress.advanceProgress]
    | succ n =>
      have hfr := iterate_advance_frame p (n + 1)
      have hcur := ih (by omega)
      rw [advance_current, pixelLength_eq_of_frame p _ hfr.1 hfr.2.1, hcur,
        Nat.mod_add_mod, Nat.add_assoc]

/-- Claim C9: the rendering depends on the counter only modulo
`pixel_length = (2*width + 4*height - 2) * 2`, and advancing the indicator
exactly `pixel_length` times returns it to its original rendering (for
non-degenerate dimensions, where the `usize` subtraction in `pixel_length`
cannot underflow). -/
theorem braille_period (width height length : Nat) (label : Option String)
    (c0 current : Nat) (hw : 0 < width) (hh : 0 < height) :
    (BrailleProgress.mk width height length c0 label).stringForProgress
        (current + (width * 2 + height * 4 - 2) * 2)
      = (BrailleProgress.mk width height length c0 label).stringForProgress current
    ∧ (BrailleProgress.advanceProgress^[
          (BrailleProgress.mk width height length c0 label).pixelLength]
        (BrailleProgress.mk width height length c0 label)).currentString
      = (BrailleProgress.mk width height length c0 label).currentString := by
  set p := BrailleProgress.mk width height length c0 label with hp
  have hpl : p.pixelLength = (width * 2 + height * 4 - 2) * 2 := rfl
  have hL : 0 < p.pixelLength := by
    rw [hpl]
    omega
  constructor
  · unfold BrailleProgress.stringForProgress
    rw [← hpl, Nat.add_mod_right]
  · have hfr := iterate_advance_frame p p.pixelLength
    have hcur := iterate_advance_current p p.pixelLength hL
    unfold BrailleProgress.currentString BrailleProgress.stringForProgress
    rw [hfr.1, hfr.2.1, hfr.2.2.1, hfr.2.2.2, hcur,
      pixelLength_eq_of_frame p _ hfr.1 hfr.2.1, Nat.add_mod_right,
      Nat.mod_mod_of_dvd _ dvd_rfl]

/-- Claim C9, witness: the orchestrator's actual indicator parameters
(`BrailleProgress::new(1, 1, 3, ...)`). -/
theorem braille_period_witness :
    (BrailleProgress.mk 1 1 3 0 (some "Thinking...")).stringForProgress
        (5 + (1 * 2 + 1 * 4 - 2) * 2)
      = (BrailleProgress.mk 1 1 3 0 (some "Thinking...")).stringForProgress 5 :=
  (braille_period 1 1 3 (some "Thinking...") 0 5 (by decide) (by decide)).1

/-! ### Markdown converter (src/modules/chat/markdown.rs)

The pulldown-cmark tokenizer is an external crate: a `List CmarkEvent`
stands for the event sequence it yields on the input string (restricted to
the constructors the converter matches on, with `other` covering every
unsupported tag/event, which the converter rejects).  URL parsing
(`str::parse` into a `Url`) is likewise external and abstracted as a
`validUrl` predicate. -/

inductive MessageEntityKind where
  | bold
  | italic
  | strikethrough
  | code
  | pre (language : Option String)
  | textLink (url : String)
deriving DecidableEq

structure MessageEntity where
  kind : MessageEntityKind
  offset : Nat
  length : Nat
deriving DecidableEq

structure ParsedString where
  content : String
  entities : List MessageEntity
deriving DecidableEq

def ParsedString.withStr (s : String) : ParsedString :=
  { content := s, entities := [] }

inductive CmarkCodeBlockKind where
  | indented
  | fenced (lang : String)
deriving DecidableEq

inductive CmarkTag where
  | paragraph
  | blockQuote
  | heading (level : Nat)
  | codeBlock (kind : CmarkCodeBlockKind)
  | list (first : Option Nat)
  | item
  | emphasis
  | strong
  | strikethrough
  | link (url : String)
  | image (url : String)
  | other
deriving DecidableEq

inductive CmarkEvent where
  | start (tag : CmarkTag)
  | endTag (tag : CmarkTag)
  | text (s : String)
  | html (s : String)
  | code (s : String)
  | softBreak
  | hardBreak
  | rule
  | other
deriving DecidableEq

inductive Tag where
  | paragraph
  | heading (level : Nat)
  | codeBlock (lang : Option String)
  | list (first : Option Nat)
  | item
  | italic
  | bold
  | strikethrough
  | link (url : String)
  | image (url : String)
deriving DecidableEq

inductive Event where
  | start (tag : Tag)
  | endE (tag : Tag)
  | text (s : String)
  | code (s : String)
  | brk
deriving DecidableEq

inductive EntityKind where
  | telegramEntityKind (kind : MessageEntityKind)
  | list (first : Option Nat)
deriving DecidableEq

inductive ParserError where
  | unexpectedCmarkTag (tag : CmarkTag)
  | unexpectedCmarkEvent (ev : CmarkEvent)
  | invalidURL (url : String)
  | unexpectedTag (tag : Tag)
  | unmatchedEntity (kind : Option EntityKind) (expected : String)
deriving DecidableEq

def Tag.tryFromCmark : CmarkTag → Except ParserError Tag
  | .paragraph => .ok .paragraph
  | .blockQuote => .ok .paragraph
  | .heading level => .ok (.heading level)
  | .codeBlock .indented => .ok (.codeBlock none)
  | .codeBlock (.fenced lang) => .ok (.codeBlock (some lang))
  | .list first => .ok (.list first)
  | .item => .ok .item
  | .emphasis => .ok .italic
  | .strong => .ok .bold
  | .strikethrough => .ok .strikethrough
  | .link url => .ok (.link url)
  | .image url => .ok (.image url)
  | .other => .error (.unexpectedCmarkTag .other)

def Event.tryFromCmark : CmarkEvent → Except ParserError Event
  | .start t => (Tag.tryFromCmark t).map Event.start
  | .endTag t => (Tag.tryFromCmark t).map Event.endE
  | .text s => .ok (.text s)
  | .html s => .ok (.code s)
  | .code s => .ok (.code s)
  | .softBreak => .ok .brk
  | .hardBreak => .ok .brk
  | .rule => .ok (.text "---")
  | .other => .error (.unexpectedCmarkEvent .other)

def EntityKind.tryFromTag (validUrl : String → Bool) : Tag → Except ParserError EntityKind
  | .list first => .ok (.list first)
  | .codeBlock lang => .ok (.telegramEntityKind (.pre lang))
  | .italic => .ok (.telegramEntityKind .italic)
  | .bold => .ok (.telegramEntityKind .bold)
  | .strikethrough => .ok (.telegramEntityKind .strikethrough)
  | .link url =>
    if validUrl url then .ok (.telegramEntityKind (.textLink url))
    else .error (.invalidURL url)
  | .image url =>
    if validUrl url then .ok (.telegramEntityKind (.textLink url))
    else .error (.invalidURL url)
  | t => .error (.unexpectedTag t)

structure Entity where
  kind : EntityKind
  start : Nat
deriving DecidableEq

def paragraphMargin : Nat := 2
def listItemMargin : Nat := 1

/-- UTF-16 code-unit count of a string (`str::encode_utf16().count()`). -/
def utf16Length (s : String) : Nat :=
  s.data.foldl (fun n c => n + (if c.toNat < 0x10000 then 1 else 2)) 0

/-- `str::ends_with('\n')` (the char variant used by the converter). -/
def endsWithNewline (s : String) : Bool :=
  s.data.getLast? == some '\n'

/-- Drop the last `n` characters.  Rust truncates `n` bytes here, but the
characters it removes are always trailing margin newlines (one byte each),
so the two agree on every reachable state. -/
def dropRightChars (s : String) (n : Nat) : String :=
  String.mk (s.data.take (s.data.length - n))

/-- The mutable parse state; the stack top is the list head (`Vec` `push`,
`pop` and `last` act on the same end). -/
structure ParseState where
  entityStack : List Entity
  parsedString : ParsedString
  utf16Offset : Nat
  prevBlockMargin : Nat
deriving DecidableEq

def ParseState.new : ParseState :=
  { entityStack := []
    parsedString := { content := "", entities := [] }
    utf16Offset := 0
    prevBlockMargin := 0 }

def ParseState.pushStr (st : ParseState) (s : String) : ParseState :=
  { st with
    parsedString := { st.parsedString with content := st.parsedString.content ++ s }
    utf16Offset := st.utf16Offset + utf16Length s
    prevBlockMargin := 0 }

def ParseState.pushBlock (st : ParseState) (margin : Nat) : ParseState :=
  if st.prevBlockMargin ≥ margin then st
  else
    let thisMargin := margin - st.prevBlockMargin
    { st.pushStr (String.mk (List.replicate thisMargin '\n')) with
      prevBlockMargin := margin }

def ParseState.pushEntity (st : ParseState) (e : MessageEntity) : ParseState :=
  { st with
    parsedString := { st.parsedString with
      entities := st.parsedString.entities ++ [e] } }

def ParseState.text (st : ParseState) (s : String) : ParseState :=
  st.pushStr s

def ParseState.code (st : ParseState) (s : String) : ParseState :=
  let offset := st.utf16Offset
  let st := st.pushStr s
  st.pushEntity { kind := .code, offset := offset, length := st.utf16Offset - offset }

def ParseState.brk (st : ParseState) : ParseState :=
  st.pushStr "\n"

def ParseState.startEvent (validUrl : String → Bool) (st : ParseState) (tag : Tag) :
    Except ParserError ParseState :=
  match tag with
  | .paragraph => .ok st
  | .heading level =>
    .ok (st.pushStr (String.mk (List.replicate level '#') ++ " "))
  | .item =>
    match st.entityStack with
    | [] => .error (.unmatchedEntity none "List")
    | e :: _ =>
      match e.kind with
      | .list (some n) => .ok (st.pushStr (toString n ++ ". "))
      | .list none => .ok (st.pushStr "• ")
      | k => .error (.unmatchedEntity (some k) "List")
  | tag =>
    match EntityKind.tryFromTag validUrl tag with
    | .ok entityKind =>
      .ok { st with
        entityStack := { kind := entityKind, start := st.utf16Offset } :: st.entityStack }
    | .error _ => .error (.unexpectedTag tag)

def ParseState.endEvent (st : ParseState) (tag : Tag) : Except ParserError ParseState :=
  match tag with
  | .paragraph => .ok (st.pushBlock paragraphMargin)
  | .heading _ => .ok (st.pushBlock paragraphMargin)
  | .codeBlock _ =>
    match st.entityStack with
    | [] => .error (.unmatchedEntity none "Pre")
    | e :: rest =>
      match e.kind with
      | .telegramEntityKind (.pre lang) =>
        let st1 := { st with entityStack := rest }
        let st2 := st1.pushEntity
          { kind := .pre lang, offset := e.start, length := st1.utf16Offset - e.start }
        let st3 := if endsWithNewline st2.parsedString.content then
            { st2 with prevBlockMargin := 1 }
          else st2
        .ok (st3.pushBlock paragraphMargin)
      | k => .error (.unmatchedEntity (some k) "Pre")
  | .list _ =>
    match st.entityStack with
    | [] => .error (.unmatchedEntity none "List")
    | e :: rest =>
      match e.kind with
      | .list _ => .ok ({ st with entityStack := rest }.pushBlock paragraphMargin)
      | k => .error (.unmatchedEntity (some k) "List")
  | .item =>
    match st.entityStack with
    | { kind := .list (some n), start := start } :: rest =>
      .ok ({ st with
        entityStack := { kind := .list (some (n + 1)), start := start } :: rest
        }.pushBlock listItemMargin)
    | { kind := .list none, start := _ } :: _ =>
      .ok (st.pushBlock listItemMargin)
    | _ =>
      .error (.unmatchedEntity (st.entityStack.head?.map (fun e => e.kind)) "List")
  | .italic | .bold | .strikethrough =>
    match st.entityStack with
    | [] => .error (.unmatchedEntity none "InlineFormat")
    | e :: rest =>
      match e.kind with
      | .telegramEntityKind k =>
        .ok ({ st with entityStack := rest }.pushEntity
          { kind := k, offset := e.start, length := st.utf16Offset - e.start })
      | k => .error (.unmatchedEntity (some k) "InlineFormat")
  | .link _ | .image _ =>
    match st.entityStack with
    | [] => .error (.unmatchedEntity none "LinkOrImage")
    | e :: rest =>
      match e.kind with
      | .telegramEntityKind (.textLink url) =>
        .ok ({ st with entityStack := rest }.pushEntity
          { kind := .textLink url, offset := e.start, length := st.utf16Offset - e.start })
      | k => .error (.unmatchedEntity (some k) "LinkOrImage")

def ParseState.nextState (validUrl : String → Bool) (st : ParseState) (e : Event) :
    Except ParserError ParseState :=
  match e with
  | .start tag => st.startEvent validUrl tag
  | .endE tag => st.endEvent tag
  | .text s => .ok (st.text s)
  | .code s => .ok (st.code s)
  | .brk => .ok st.brk

/-- The trailing-margin trim of `close`: Rust truncates
`prev_block_margin` bytes; the trailing margin characters are single-byte
newlines, so dropping that many characters agrees. -/
def ParseState.close (st : ParseState) : ParsedString :=
  { st.parsedString with
    content := dropRightChars st.parsedString.content st.prevBlockMargin }

/-- One `try_fold` step: `Event::try_from(event)?` then `next_state`. -/
def stepEvent (validUrl : String → Bool) (st : ParseState) (ev : CmarkEvent) :
    Except ParserError ParseState :=
  match Event.tryFromCmark ev with
  | .ok e => st.nextState validUrl e
  | .error err => .error err

def walk (validUrl : String → Bool) :
    ParseState → List CmarkEvent → Except ParserError ParseState
  | st, [] => .ok st
  | st, ev :: rest =>
    match stepEvent validUrl st ev with
    | .ok st1 => walk validUrl st1 rest
    | .error err => .error err

/-- `parse` of markdown.rs: fold the event walk over the tokenizer output;
any error degrades to returning the input verbatim with no entities. -/
def parse (validUrl : String → Bool) (events : List CmarkEvent)
    (content : String) : ParsedString :=
  match walk validUrl ParseState.new events with
  | .ok st => st.close
  | .error _ => ParsedString.withStr content

theorem walk_append (validUrl : String → Bool) :
    ∀ (l1 : List CmarkEvent) (st : ParseState) (l2 : List CmarkEvent),
      walk validUrl st (l1 ++ l2)
        = match walk validUrl st l1 with
          | .ok st1 => walk validUrl st1 l2
          | .error e => .error e := by
  intro l1
  induction l1 with
  | nil =>
    intro st l2
    rfl
  | cons ev rest ih =>
    intro st l2
    rw [List.cons_append]
    show (match stepEvent validUrl st ev with
          | .ok st1 => walk validUrl st1 (rest ++ l2)
          | .error err => .error err) = _
    cases h : stepEvent validUrl st ev with
    | ok st1 =>
      simp only [walk, h, ih]
    | error e =>
      simp only [walk, h]

/-- Claim C4: `parse` is total — it always produces a `ParsedString`, via
the successful walk or via the verbatim fallback — and whenever the event
walk errors, in particular when a link or image URL fails URL parsing, the
result is exactly the input string with an empty entity list. -/
theorem parse_total_fallback (validUrl : String → Bool)
    (events : List CmarkEvent) (input : String) :
    ((∃ st, walk validUrl ParseState.new events = .ok st
        ∧ parse validUrl events input = st.close)
      ∨ ((∃ e, walk validUrl ParseState.new events = .error e)
        ∧ parse validUrl events input = ParsedString.withStr input))
    ∧ (∀ (pre : List CmarkEvent) (url : String) (rest : List CmarkEvent)
        (st : ParseState),
        (events = pre ++ CmarkEvent.start (.link url) :: rest
          ∨ events = pre ++ CmarkEvent.start (.image url) :: rest) →
        validUrl url = false →
        walk validUrl ParseState.new pre = .ok st →
        parse validUrl events input = ParsedString.withStr input) := by
  constructor
  · cases h : walk validUrl ParseState.new events with
    | ok st =>
      exact Or.inl ⟨st, rfl, by simp [parse, h]⟩
    | error e =>
      exact Or.inr ⟨⟨e, rfl⟩, by simp [parse, h]⟩
  · intro pre url rest st hsplit hvalid hpre
    have herrL : stepEvent validUrl st (CmarkEvent.start (CmarkTag.link url))
        = .error (.unexpectedTag (.link url)) := by
      simp [stepEvent, Event.tryFromCmark, Tag.tryFromCmark, Except.map,
        ParseState.nextState, ParseState.startEvent, EntityKind.tryFromTag, hvalid]
    have herrI : stepEvent validUrl st (CmarkEvent.start (CmarkTag.image url))
        = .error (.unexpectedTag (.image url)) := by
      simp [stepEvent, Event.tryFromCmark, Tag.tryFromCmark, Except.map,
        ParseState.nextState, ParseState.startEvent, EntityKind.tryFromTag, hvalid]
    rcases hsplit with h | h
    · have hwalk : walk validUrl ParseState.new events
          = .error (ParserError.unexpectedTag (.link url)) := by
        rw [h, walk_append, hpre]
        show (match stepEvent validUrl st (CmarkEvent.start (CmarkTag.link url)) with
              | .ok st1 => walk validUrl st1 rest
              | .error err => .error err) = _
        rw [herrL]
      unfold parse
      rw [hwalk]
    · have hwalk : walk validUrl ParseState.new events
          = .error (ParserError.unexpectedTag (.image url)) := by
        rw [h, walk_append, hpre]
        show (match stepEvent validUrl st (CmarkEvent.start (CmarkTag.image url)) with
              | .ok st1 => walk validUrl st1 rest
              | .error err => .error err) = _
        rw [herrI]
      unfold parse
      rw [hwalk]

/-- Claim C4, witness: a single malformed link with a rejecting URL
predicate degrades to the verbatim input. -/
theorem parse_total_fallback_witness :
    parse (fun _ => false) [CmarkEvent.start (.link "invalid")]
        "This is a [link](invalid)"
      = ParsedString.withStr "This is a [link](invalid)" :=
  (parse_total_fallback (fun _ => false) [CmarkEvent.start (.link "invalid")]
      "This is a [link](invalid)").2 [] "invalid" [] ParseState.new
    (Or.inl rfl) rfl rfl

/-- Claim C5 (code bug): on a document ending with a fenced code block, the
trailing-margin trim of `close` removes a newline that the emitted `Pre`
entity still covers, so the entity extends one UTF-16 unit past the end of
the returned content: `parse` of the events for the input below returns
content `"x"` (UTF-16 length 1) with a single entity spanning `[0, 2)`. -/
theorem entity_exceeds_content :
    parse (fun _ => true)
        [CmarkEvent.start (.codeBlock (.fenced "")), CmarkEvent.text "x\n",
          CmarkEvent.endTag (.codeBlock (.fenced ""))] "```\nx\n```"
      = { content := "x",
          entities := [{ kind := .pre (some ""), offset := 0, length := 2 }] }
    ∧ ¬ (∀ e ∈ (parse (fun _ => true)
        [CmarkEvent.start (.codeBlock (.fenced "")), CmarkEvent.text "x\n",
          CmarkEvent.endTag (.codeBlock (.fenced ""))] "```\nx\n```").entities,
        e.offset + e.length
          ≤ utf16Length (parse (fun _ => true)
              [CmarkEvent.start (.codeBlock (.fenced "")), CmarkEvent.text "x\n",
                CmarkEvent.endTag (.codeBlock (.fenced ""))] "```\nx\n```").content) := by
  constructor
  · rfl
  · decide

end TeleGPT
